import Mathlib

/-
  Verification development for the circuit-crossing verifier
  (ps3_circuit2.py): a sweep-line crossing detector over axis-aligned
  wires, backed by a range index (an array plus a side binary search
  tree).

  The Python source is shallowly embedded below.  Coordinates are
  modelled as integers (the program only ever compares coordinates, so
  any linearly ordered coordinate type has identical behaviour).
  Mutation is modelled by explicit state passing; a statement that can
  raise a Python exception is modelled in the Except monad, with
  PyErr naming the exception class actually raised.
-/

namespace Circuit

/-- Python exception classes reachable in the embedded code. -/
inductive PyErr where
  | attributeError
  | valueError
  | runtimeError
deriving DecidableEq, Repr

/-- A wire (class Wire): name, normalized endpoints, creation id. -/
structure Wire where
  name : String
  x1 : Int
  y1 : Int
  x2 : Int
  y2 : Int
  object_id : Nat
deriving DecidableEq, Repr

/-- Wire.is_horizontal: both endpoints share the Y coordinate. -/
def Wire.is_horizontal (w : Wire) : Bool := w.y1 == w.y2

/-- Wire.is_vertical: both endpoints share the X coordinate. -/
def Wire.is_vertical (w : Wire) : Bool := w.x1 == w.x2

/-- Wire.__init__: normalize the endpoint order, then reject the wire
(ValueError, modelled as none) unless it is horizontal or vertical. -/
def mkWire (name : String) (x1 y1 x2 y2 : Int) (oid : Nat) : Option Wire :=
  let p := if x1 > x2 then (x2, x1) else (x1, x2)
  let q := if y1 > y2 then (y2, y1) else (y1, y2)
  let w : Wire := ⟨name, p.1, q.1, p.2, q.2, oid⟩
  if w.is_horizontal || w.is_vertical then some w else none

/-- Wire.intersects: false for same-orientation wires, otherwise closed
interval containment on both axes with h the horizontal and v the
vertical wire. -/
def Wire.intersects (w other : Wire) : Bool :=
  if w.is_horizontal == other.is_horizontal then false
  else
    let h := if w.is_horizontal then w else other
    let v := if w.is_horizontal then other else w
    decide (v.y1 ≤ h.y1 ∧ h.y1 ≤ v.y2 ∧ h.x1 ≤ v.x1 ∧ v.x1 ≤ h.x2)

/-- class KeyWirePair: a key (the wire's Y) together with the wire it
stands for; the tie-break wire_id is the wire's object_id. -/
structure KeyWirePair where
  key : Int
  wire : Wire
deriving DecidableEq, Repr

/-- KeyWirePair.wire_id (set in __init__ from wire.object_id). -/
def KeyWirePair.wire_id (k : KeyWirePair) : Int := (k.wire.object_id : Int)

/-- KeyWirePair.__lt__. -/
def kwpLt (a b : KeyWirePair) : Bool :=
  decide (a.key < b.key ∨ (a.key = b.key ∧ a.wire_id < b.wire_id))

/-- KeyWirePair.__le__. -/
def kwpLe (a b : KeyWirePair) : Bool :=
  decide (a.key < b.key ∨ (a.key = b.key ∧ a.wire_id ≤ b.wire_id))

/-- KeyWirePair.__gt__. -/
def kwpGt (a b : KeyWirePair) : Bool :=
  decide (a.key > b.key ∨ (a.key = b.key ∧ a.wire_id > b.wire_id))

/-- KeyWirePair.__eq__. -/
def kwpEq (a b : KeyWirePair) : Bool :=
  decide (a.key = b.key ∧ a.wire_id = b.wire_id)

/-- A query bound: the (key, wire_id) payload of a KeyWirePair used only
for comparisons.  KeyWirePairL and KeyWirePairH are its two sentinel
constructors; a bound with the wire_id of a stored pair compares like
that pair. -/
structure KeyBound where
  key : Int
  wire_id : Int
deriving DecidableEq, Repr

/-- class KeyWirePairL: sentinel smaller than every pair with its key. -/
def KeyWirePairL (key : Int) : KeyBound := ⟨key, -1000000000⟩

/-- class KeyWirePairH: sentinel larger than every pair with its key
(the source assumes no more than a billion objects). -/
def KeyWirePairH (key : Int) : KeyBound := ⟨key, 1000000000⟩

/-- first_key <= key <= last_key, with both comparisons by
KeyWirePair.__le__ (key first, wire_id tie-break). -/
def kwpInRange (first_key last_key : KeyBound) (k : KeyWirePair) : Bool :=
  decide (first_key.key < k.key ∨ (first_key.key = k.key ∧ first_key.wire_id ≤ k.wire_id)) &&
  decide (k.key < last_key.key ∨ (k.key = last_key.key ∧ k.wire_id ≤ last_key.wire_id))

/-- lo <= hi on two bounds, by KeyWirePair.__le__. -/
def boundLe (a b : KeyBound) : Bool :=
  decide (a.key < b.key ∨ (a.key = b.key ∧ a.wire_id ≤ b.wire_id))

/-- The node structure of class BST_Node_KWP / BSTree: an empty slot
(a None child) or a node with left child, kwp_key and right child. -/
inductive Tree where
  | nil
  | node (leftChild : Tree) (kwp_key : KeyWirePair) (rightChild : Tree)
deriving DecidableEq, Repr

/-- Keys of a tree, in order (BST_Node_KWP.node_list). -/
def keys : Tree → List KeyWirePair
  | .nil => []
  | .node l k r => keys l ++ [k] ++ keys r

/-- BST_Node_KWP.insert together with BSTree.insert's root case: the
returned Bool is the Python return value (False on a duplicate, which
leaves the tree unchanged). -/
def treeInsert : Tree → KeyWirePair → Bool × Tree
  | .nil, k => (true, .node .nil k .nil)
  | .node l key r, k =>
    if kwpEq key k then (false, .node l key r)
    else if kwpGt key k then
      ((treeInsert l k).1, .node (treeInsert l k).2 key r)
    else
      ((treeInsert r k).1, .node l key (treeInsert r k).2)

/-- The successor-removal loop of BSTree.remove's two-children case.
remMin pl pk pr models the state delNodeParent = (pl, pk, pr),
delNode = pl, and walks delNode to the leftmost node under pl; it then
performs the source's comparison-guarded splice and returns the removed
(minimum) key and the rebuilt parent subtree.  The pl = nil equation is
unreachable (the caller only passes a node). -/
def remMin : Tree → KeyWirePair → Tree → KeyWirePair × Tree
  | .nil, pk, pr => (pk, .node .nil pk pr)
  | .node .nil dk dr, pk, pr =>
    if dr = .nil then
      if kwpLt dk pk then (dk, .node .nil pk pr)
      else (dk, .node (.node .nil dk .nil) pk .nil)
    else
      if kwpGt pk dk then (dk, .node dr pk pr)
      else if kwpLt pk dk then (dk, .node (.node .nil dk dr) pk dr)
      else (dk, .node (.node .nil dk dr) pk pr)
  | .node (.node a b c) dk dr, pk, pr =>
    ((remMin (.node a b c) dk dr).1, .node (remMin (.node a b c) dk dr).2 pk pr)

/-- The case dispatch of BSTree.remove once the node to delete has been
located: its replacement subtree, given the node's two children.  In the
two-children case with r.leftChild = None the source first overwrites
the node's key with r's key and then compares the (now equal) keys, so
neither splice branch fires and r stays attached. -/
def removeNodeCase : Tree → Tree → Tree
  | .nil, .nil => .nil
  | l@(.node _ _ _), .nil => l
  | .nil, r@(.node _ _ _) => r
  | l@(.node _ _ _), .node rl rk rr =>
    match rl with
    | .nil => if rr = .nil then .node l rk .nil else .node l rk (.node .nil rk rr)
    | .node a b c =>
      .node l (remMin (.node a b c) rk rr).1 (remMin (.node a b c) rk rr).2

/-- BSTree.remove: descend with the source's while loop (left when
kwp < node.kwp_key).  When the descent reaches None the source executes
print("Removed: ", node.kwp_key) on node = None and raises
AttributeError before its not-found branch can return False. -/
def treeRemove : Tree → KeyWirePair → Except PyErr Tree
  | .nil, _ => .error .attributeError
  | .node l key r, k =>
    if kwpEq key k then .ok (removeNodeCase l r)
    else if kwpLt k key then
      match treeRemove l k with
      | .error e => .error e
      | .ok l2 => .ok (.node l2 key r)
    else
      match treeRemove r k with
      | .error e => .error e
      | .ok r2 => .ok (.node l key r2)

/-- class RangeIndex: the array of keys plus the side BSTree. -/
structure RangeIndex where
  data : List KeyWirePair
  bst_data : Tree
deriving DecidableEq, Repr

/-- RangeIndex() constructor. -/
def emptyIndex : RangeIndex := ⟨[], .nil⟩

/-- RangeIndex.add: append to data and insert into the BST.  (The
source's None check cannot fire: every embedded key wraps a wire.) -/
def RangeIndex.add (idx : RangeIndex) (k : KeyWirePair) : RangeIndex :=
  ⟨idx.data ++ [k], (treeInsert idx.bst_data k).2⟩

/-- RangeIndex.remove: only the side BST is updated; data is untouched. -/
def RangeIndex.remove (idx : RangeIndex) (k : KeyWirePair) : Except PyErr RangeIndex :=
  match treeRemove idx.bst_data k with
  | .error e => .error e
  | .ok t => .ok ⟨idx.data, t⟩

/-- RangeIndex.list: scan data for keys within the closed bounds. -/
def RangeIndex.list (idx : RangeIndex) (first_key last_key : KeyBound) : List KeyWirePair :=
  idx.data.filter (kwpInRange first_key last_key)

/-- RangeIndex.count: loop over data incrementing a counter. -/
def RangeIndex.count (idx : RangeIndex) (first_key last_key : KeyBound) : Nat :=
  idx.data.foldl (fun result k => if kwpInRange first_key last_key k then result + 1 else result) 0

/-- Python's string comparison: lexicographic on Unicode code points,
a strict prefix being smaller. -/
def strLt : List Char → List Char → Bool
  | [], [] => false
  | [], _ :: _ => true
  | _ :: _, [] => false
  | a :: as, b :: bs =>
    if a.toNat < b.toNat then true
    else if a.toNat = b.toNat then strLt as bs else false

/-- sorted([wire1.name, wire2.name]) on the two-element list: a stable
sort swaps the two exactly when the second is smaller. -/
def sortedPair (a b : String) : String × String :=
  if strLt b.data a.data then (b, a) else (a, b)

/-- class ResultSet. -/
structure ResultSet where
  crossings : List (String × String)
deriving DecidableEq, Repr

/-- ResultSet.add_crossing. -/
def ResultSet.add_crossing (rs : ResultSet) (wire1 wire2 : Wire) : ResultSet :=
  ⟨rs.crossings ++ [sortedPair wire1.name wire2.name]⟩

/-- The sweep event phase strings 'add' / 'query' / 'delete'. -/
inductive EType where
  | add
  | query
  | delete
deriving DecidableEq, Repr

/-- One sweep event, the source's list [x, phase, object_id, type, wire]. -/
structure Event where
  x : Int
  phase : Nat
  oid : Nat
  etype : EType
  wire : Wire
deriving DecidableEq, Repr

/-- The add event of a horizontal wire: [wire.x1, 0, id, 'add', wire]. -/
def addEvent (w : Wire) : Event := ⟨w.x1, 0, w.object_id, .add, w⟩

/-- The delete event of a horizontal wire: [wire.x2, 2, id, 'delete', wire]. -/
def delEvent (w : Wire) : Event := ⟨w.x2, 2, w.object_id, .delete, w⟩

/-- The query event of a non-horizontal wire: [wire.x1, 1, id, 'query', wire]. -/
def queryEvent (w : Wire) : Event := ⟨w.x1, 1, w.object_id, .query, w⟩

/-- CrossVerifier._events_from_layer, per wire. -/
def eventsFromWire (w : Wire) : List Event :=
  if w.is_horizontal then [addEvent w, delEvent w] else [queryEvent w]

/-- CrossVerifier._events_from_layer over the layer's wires in order. -/
def eventsFromLayer : List Wire → List Event
  | [] => []
  | w :: ws => eventsFromWire w ++ eventsFromLayer ws

/-- Python's lexicographic list comparison on events, restricted to the
(x, phase, object_id) prefix.  Wires created by the program have unique
object ids, so the comparison never reaches the later components. -/
def eventLe (a b : Event) : Bool :=
  decide (a.x < b.x ∨ (a.x = b.x ∧ (a.phase < b.phase ∨ (a.phase = b.phase ∧ a.oid ≤ b.oid))))

/-- The event order as a relation, for sorting. -/
def EvLE (a b : Event) : Prop := eventLe a b = true

instance : DecidableRel EvLE := fun a b => inferInstanceAs (Decidable (eventLe a b = true))

instance : IsTotal Event EvLE :=
  ⟨by intro a b; simp only [EvLE, eventLe, decide_eq_true_eq]; omega⟩

instance : IsTrans Event EvLE :=
  ⟨by intro a b c; simp only [EvLE, eventLe, decide_eq_true_eq]; omega⟩

/-- self.events.sort(): sort by (x, phase, object_id). -/
def sortEvents (es : List Event) : List Event := es.insertionSort EvLE

/-- class CrossVerifier's state. -/
structure CrossVerifier where
  events : List Event
  index : RangeIndex
  result_set : ResultSet
  performed : Bool
deriving DecidableEq, Repr

/-- CrossVerifier.__init__: build and sort the events; the min() over
the wires' x1 raises ValueError on an empty layer. -/
def mkVerifier (layer : List Wire) : Except PyErr CrossVerifier :=
  if layer.isEmpty then .error .valueError
  else .ok ⟨sortEvents (eventsFromLayer layer), emptyIndex, ⟨[]⟩, false⟩

/-- The query step's candidate scan: the wires of the keys in the Y
range that the vertical wire actually intersects. -/
def queryCross (idx : RangeIndex) (w : Wire) : List Wire :=
  ((idx.list (KeyWirePairL w.y1) (KeyWirePairH w.y2)).filter
    (fun kwp => w.intersects kwp.wire)).map (fun kwp => kwp.wire)

/-- CrossVerifier._compute_crossings with count_only = True: fold the
events, keeping the running count and the mutated index. -/
def sweepCount : List Event → RangeIndex → Nat → Except PyErr (Nat × RangeIndex)
  | [], idx, result => .ok (result, idx)
  | e :: es, idx, result =>
    match e.etype with
    | .add => sweepCount es (idx.add ⟨e.wire.y1, e.wire⟩) result
    | .delete =>
      match idx.remove ⟨e.wire.y1, e.wire⟩ with
      | .error err => .error err
      | .ok idx2 => sweepCount es idx2 result
    | .query => sweepCount es idx (result + (queryCross idx e.wire).length)

/-- CrossVerifier._compute_crossings with count_only = False: fold the
events, recording each crossing into the result set. -/
def sweepList : List Event → RangeIndex → ResultSet → Except PyErr (ResultSet × RangeIndex)
  | [], idx, result => .ok (result, idx)
  | e :: es, idx, result =>
    match e.etype with
    | .add => sweepList es (idx.add ⟨e.wire.y1, e.wire⟩) result
    | .delete =>
      match idx.remove ⟨e.wire.y1, e.wire⟩ with
      | .error err => .error err
      | .ok idx2 => sweepList es idx2 result
    | .query =>
      sweepList es idx
        ((queryCross idx e.wire).foldl (fun r cw => r.add_crossing e.wire cw) result)

/-- CrossVerifier.count_crossings: a bare raise (RuntimeError in
Python 3) when already performed, otherwise mark performed and sweep. -/
def CrossVerifier.count_crossings (v : CrossVerifier) : Except PyErr (Nat × CrossVerifier) :=
  if v.performed then .error .runtimeError
  else
    match sweepCount v.events v.index 0 with
    | .error e => .error e
    | .ok (n, idx2) => .ok (n, { v with performed := true, index := idx2 })

/-- CrossVerifier.wire_crossings: same guard, list-producing sweep. -/
def CrossVerifier.wire_crossings (v : CrossVerifier) : Except PyErr (ResultSet × CrossVerifier) :=
  if v.performed then .error .runtimeError
  else
    match sweepList v.events v.index v.result_set with
    | .error e => .error e
    | .ok (rs, idx2) => .ok (rs, { v with performed := true, index := idx2, result_set := rs })

/-- A fresh verifier's count_crossings over a layer. -/
def countFresh (layer : List Wire) : Except PyErr Nat :=
  match mkVerifier layer with
  | .error e => .error e
  | .ok v =>
    match v.count_crossings with
    | .error e => .error e
    | .ok (n, _) => .ok n

/-- A fresh verifier's wire_crossings over a layer, as the recorded
list of name pairs. -/
def crossingsFresh (layer : List Wire) : Except PyErr (List (String × String)) :=
  match mkVerifier layer with
  | .error e => .error e
  | .ok v =>
    match v.wire_crossings with
    | .error e => .error e
    | .ok (rs, _) => .ok rs.crossings

/-- The spec's scenario 1 horizontal wire H: (0,0)-(10,0). -/
def wH : Wire := ⟨"H", 0, 0, 10, 0, 0⟩

/-- The spec's scenario 1 vertical wire V: (5,-5)-(5,5). -/
def wV : Wire := ⟨"V", 5, -5, 5, 5, 1⟩

/-- The spec's scenario 1 layer. -/
def layer0 : List Wire := [wH, wV]

/-- The index key of wH. -/
def kH : KeyWirePair := ⟨0, wH⟩

/-- A horizontal wire at Y = 5 whose key is absent from the indexes
built below. -/
def wB5 : Wire := ⟨"B", 0, 5, 3, 5, 7⟩

/-- The (absent) index key of wB5. -/
def kB5 : KeyWirePair := ⟨5, wB5⟩

/-- A horizontal wire at Y = 1. -/
def wA2 : Wire := ⟨"A2", 0, 1, 4, 1, 2⟩

/-- A horizontal wire at Y = 2. -/
def wB2 : Wire := ⟨"B2", 0, 2, 4, 2, 3⟩

/-- The index key of wA2. -/
def kA2 : KeyWirePair := ⟨1, wA2⟩

/-- The index key of wB2. -/
def kB2 : KeyWirePair := ⟨2, wB2⟩

/-- An index holding kB2 and kA2, inserted in descending key order. -/
def idx6 : RangeIndex := (emptyIndex.add kB2).add kA2

/-- The degenerate point wire (0,0)-(0,0). -/
def pWire : Wire := ⟨"p", 0, 0, 0, 0, 0⟩

/-- The fresh verifier over layer0 (what mkVerifier layer0 returns). -/
def v0 : CrossVerifier := ⟨sortEvents (eventsFromLayer layer0), emptyIndex, ⟨[]⟩, false⟩

/-- The verifier state after v0.count_crossings: performed, data holding
the stale kH (the delete event only touched the BST), BST empty. -/
def v1 : CrossVerifier := ⟨sortEvents (eventsFromLayer layer0), ⟨[kH], .nil⟩, ⟨[]⟩, true⟩

/-- A horizontal wire touching the vertical wire vT at its right end. -/
def hT : Wire := ⟨"hT", 0, 0, 10, 0, 0⟩

/-- A vertical wire whose X equals hT.x2 and whose low Y equals hT's Y. -/
def vT : Wire := ⟨"vT", 10, 0, 10, 5, 1⟩

/-- The touching-endpoint layer for the closed-interval scenario. -/
def layerT : List Wire := [hT, vT]

/-- A recorded crossing: the canonical name pair of a genuinely
intersecting vertical/horizontal wire pair. -/
def GoodPair (p : String × String) : Prop :=
  ∃ vw hw : Wire, vw.is_vertical = true ∧ hw.is_horizontal = true ∧
    vw.intersects hw = true ∧ p = sortedPair vw.name hw.name

/-- The search-tree ordering the comparison-driven BST code relies on:
left keys strictly below the node key, right keys at or above it.  Every
tree the embedded code builds satisfies it. -/
def OrderedT : Tree → Prop
  | .nil => True
  | .node l k r =>
    OrderedT l ∧ OrderedT r ∧
    (∀ x ∈ keys l, kwpLt x k = true) ∧ (∀ x ∈ keys r, kwpLe k x = true)

/-- A key is present in a tree up to the source's __eq__ (same y, same
tie-break id). -/
def memEq (k : KeyWirePair) (t : Tree) : Prop :=
  ∃ y ∈ keys t, kwpEq y k = true

/-- Every delete event still ahead of the sweep either finds its key in
the BST or its matching add event is also still ahead. -/
def pendingOK (rest : List Event) (t : Tree) : Prop :=
  ∀ e ∈ rest, e.etype = .delete → memEq ⟨e.wire.y1, e.wire⟩ t ∨ addEvent e.wire ∈ rest

/-- Distinct delete events never delete keys with the same tie-break. -/
def DelNe (a b : Event) : Prop :=
  a.etype = .delete → b.etype = .delete → a.wire.object_id ≠ b.wire.object_id

/-- A layer as the program builds one: every wire passed construction
(horizontal or vertical, normalized endpoints) and object ids are
pairwise distinct (Wire.next_object_id hands out fresh ids). -/
def WFLayer (layer : List Wire) : Prop :=
  (∀ w ∈ layer, (w.is_horizontal = true ∨ w.is_vertical = true) ∧ w.x1 ≤ w.x2 ∧ w.y1 ≤ w.y2) ∧
  layer.Pairwise (fun a b => a.object_id ≠ b.object_id)

/-- The index keys that a run of events appends to data (one per add
event, in order). -/
def addedKeys (l : List Event) : List KeyWirePair :=
  l.filterMap (fun e =>
    match e.etype with
    | .add => some ⟨e.wire.y1, e.wire⟩
    | _ => none)

/-
  Theorems.  General lemmas about the embedded operations come first,
  then one theorem per specification claim (with counterexamples and
  witnesses where applicable).
-/

/-- A counting fold over a list equals the accumulator plus the length
of the filtered list. -/
theorem foldl_count (p : KeyWirePair → Bool) (l : List KeyWirePair) :
    ∀ acc : Nat, l.foldl (fun r k => if p k then r + 1 else r) acc = acc + (l.filter p).length := by
  induction l with
  | nil => intro acc; simp
  | cons x xs ih =>
    intro acc
    by_cases h : p x <;> simp [List.filter_cons, h, ih] <;> omega

/-- A duplicate-detecting insert (returning False) leaves the tree
unchanged. -/
theorem treeInsert_false_eq : ∀ (t : Tree) (k : KeyWirePair),
    (treeInsert t k).1 = false → (treeInsert t k).2 = t
  | .nil, k => by simp [treeInsert]
  | .node l key r, k => by
    intro hf
    by_cases h1 : kwpEq key k = true
    · simp [treeInsert, h1]
    · by_cases h2 : kwpGt key k = true
      · have hf2 : (treeInsert l k).1 = false := by
          simpa [treeInsert, h1, h2] using hf
        simp [treeInsert, h1, h2, treeInsert_false_eq l k hf2]
      · have hf2 : (treeInsert r k).1 = false := by
          simpa [treeInsert, h1, h2] using hf
        simp [treeInsert, h1, h2, treeInsert_false_eq r k hf2]

/-- C1.  The claim (RangeIndex.list returns exactly the active keys)
fails: after adding the key kH and then removing it, removal reports
success, yet list still returns kH, because RangeIndex.remove only
updates the side BST and never deletes from the data array that list
scans. -/
theorem C1_stale_list :
    Except.map (fun i => RangeIndex.list i (KeyWirePairL 0) (KeyWirePairH 0))
      ((emptyIndex.add kH).remove kH) = .ok [kH] := by
  rfl

/-- C4 counterexample.  Inserting a key equal to one already present
does not fail: the duplicate is appended to data (stored twice), while
the BST insert merely returns False. -/
theorem C4_cex :
    ((emptyIndex.add kH).add kH).data = [kH, kH] ∧
    (treeInsert (emptyIndex.add kH).bst_data kH).1 = false :=
  ⟨rfl, rfl⟩

/-- C4 amended.  When the BST search finds an equal key (insert returns
False), no error is raised: the duplicate is still appended to the data
array and the BST is left unchanged. -/
theorem C4_amended (idx : RangeIndex) (k : KeyWirePair)
    (h : (treeInsert idx.bst_data k).1 = false) :
    (idx.add k).data = idx.data ++ [k] ∧ (idx.add k).bst_data = idx.bst_data :=
  ⟨rfl, treeInsert_false_eq _ _ h⟩

/-- C4 witness: the amended claim at the concrete duplicate insertion. -/
theorem C4_amended_witness :
    (treeInsert (emptyIndex.add kH).bst_data kH).1 = false ∧
    (((emptyIndex.add kH).add kH).data = (emptyIndex.add kH).data ++ [kH] ∧
      ((emptyIndex.add kH).add kH).bst_data = (emptyIndex.add kH).bst_data) :=
  ⟨rfl, C4_amended (emptyIndex.add kH) kH rfl⟩

/-- C5.  Removing an absent key does not produce the intended
"not found" report: the debug print dereferences the None node first,
so the removal raises AttributeError (on a non-empty and on an empty
index alike); the index state is not modified before the raise. -/
theorem C5_remove_absent_crash :
    (emptyIndex.add kH).remove kB5 = .error .attributeError ∧
    emptyIndex.remove kB5 = .error .attributeError :=
  ⟨rfl, rfl⟩

/-- C6 counterexample.  After inserting kB2 (key 2) then kA2 (key 1),
list over a range containing both returns them in insertion order
[kB2, kA2], although kA2 is strictly smaller: the output is not in
ascending key order. -/
theorem C6_cex :
    idx6.list (KeyWirePairL 1) (KeyWirePairH 2) = [kB2, kA2] ∧ kwpLt kA2 kB2 = true :=
  ⟨rfl, rfl⟩

/-- C6 amended.  list returns exactly the stored keys within the closed
bounds, in insertion order: its output is a sublist of the data array
(which add extends at the end), not an ascending reordering. -/
theorem C6_amended (idx : RangeIndex) (lo hi : KeyBound) :
    (idx.list lo hi).Sublist idx.data ∧
    ∀ k, k ∈ idx.list lo hi ↔ (k ∈ idx.data ∧ kwpInRange lo hi k = true) :=
  ⟨List.filter_sublist _, fun k => by simp [RangeIndex.list, List.mem_filter]⟩

/-- C7 counterexample.  The degenerate point wire (0,0)-(0,0) is
accepted by construction (it is horizontal and vertical at once), so
construction neither fails nor guarantees exactly one orientation. -/
theorem C7_cex :
    mkWire "p" 0 0 0 0 0 = some pWire ∧ pWire.x1 = pWire.x2 ∧ pWire.y1 = pWire.y2 :=
  ⟨rfl, rfl, rfl⟩

/-- C7 amended.  Construction fails only when the normalized segment is
neither horizontal nor vertical; every constructed wire satisfies at
least one of x1 = x2 or y1 = y2 (a point satisfies both) and has
normalized endpoints. -/
theorem C7_amended (name : String) (x1 y1 x2 y2 : Int) (oid : Nat) (w : Wire)
    (h : mkWire name x1 y1 x2 y2 oid = some w) :
    (w.x1 = w.x2 ∨ w.y1 = w.y2) ∧ w.x1 ≤ w.x2 ∧ w.y1 ≤ w.y2 := by
  simp only [mkWire] at h
  by_cases hx : x1 > x2 <;> by_cases hy : y1 > y2 <;>
    simp only [hx, hy, if_true, if_false] at h
  all_goals split at h
  all_goals rename_i hcond
  all_goals try exact Option.noConfusion h
  all_goals injection h with h2
  all_goals subst h2
  all_goals simp only [Wire.is_horizontal, Wire.is_vertical, Bool.or_eq_true, beq_iff_eq] at hcond
  all_goals refine ⟨?_, ?_, ?_⟩ <;> dsimp only <;> omega

/-- C7 witness: the amended claim at a concrete horizontal wire. -/
theorem C7_amended_witness :
    mkWire "H" 0 0 10 0 0 = some wH ∧
    ((wH.x1 = wH.x2 ∨ wH.y1 = wH.y2) ∧ wH.x1 ≤ wH.x2 ∧ wH.y1 ≤ wH.y2) :=
  ⟨rfl, C7_amended "H" 0 0 10 0 0 wH rfl⟩

/-- C9.  RangeIndex.count equals the length of RangeIndex.list for the
same bounds. -/
theorem C9_count_consistent (idx : RangeIndex) (lo hi : KeyBound)
    (h : boundLe lo hi = true) :
    idx.count lo hi = (idx.list lo hi).length := by
  unfold RangeIndex.count RangeIndex.list
  simpa using foldl_count (kwpInRange lo hi) idx.data 0

/-- C9 witness: the consistency at a concrete index and bounds. -/
theorem C9_count_consistent_witness :
    boundLe (KeyWirePairL 1) (KeyWirePairH 2) = true ∧
    idx6.count (KeyWirePairL 1) (KeyWirePairH 2) =
      (idx6.list (KeyWirePairL 1) (KeyWirePairH 2)).length :=
  ⟨by decide, C9_count_consistent idx6 (KeyWirePairL 1) (KeyWirePairH 2) (by decide)⟩

/-- Recording a run of crossings appends one canonical name pair per
crossing wire. -/
theorem foldl_add_crossing (l : List Wire) (w : Wire) :
    ∀ rs : ResultSet,
    (l.foldl (fun r cw => r.add_crossing w cw) rs).crossings
      = rs.crossings ++ l.map (fun cw => sortedPair w.name cw.name) := by
  induction l with
  | nil => intro rs; simp
  | cons x xs ih =>
    intro rs
    rw [List.map_cons, List.foldl_cons, ih]
    simp [ResultSet.add_crossing]

/-- The counting sweep computes the length of the listing sweep's
crossing list, from any aligned accumulator pair, with identical index
mutations and identical failures. -/
theorem sweep_count_eq (es : List Event) :
    ∀ (idx : RangeIndex) (n : Nat) (rs : ResultSet), n = rs.crossings.length →
    sweepCount es idx n =
      (sweepList es idx rs).map (fun p => (p.1.crossings.length, p.2)) := by
  induction es with
  | nil =>
    intro idx n rs h
    simp [sweepCount, sweepList, Except.map, h]
  | cons e es ih =>
    intro idx n rs h
    cases het : e.etype
    · simp only [sweepCount, sweepList, het]
      exact ih _ n rs h
    · simp only [sweepCount, sweepList, het]
      apply ih
      rw [foldl_add_crossing, List.length_append, List.length_map, h]
    · simp only [sweepCount, sweepList, het]
      cases hrem : RangeIndex.remove idx ⟨e.wire.y1, e.wire⟩ with
      | error err => simp [Except.map]
      | ok idx2 => exact ih _ n rs h

/-- C2.  count_crossings on a fresh verifier equals the length of the
crossing list produced by wire_crossings on a fresh verifier over the
same layer (including agreement on the error outcome). -/
theorem C2_count_eq_length (layer : List Wire) :
    countFresh layer = (crossingsFresh layer).map List.length := by
  unfold countFresh crossingsFresh mkVerifier
  by_cases hl : layer.isEmpty
  · simp [hl, Except.map]
  · simp only [hl, if_false, Bool.false_eq_true]
    simp only [CrossVerifier.count_crossings, CrossVerifier.wire_crossings]
    rw [sweep_count_eq _ emptyIndex 0 ⟨[]⟩ rfl]
    cases h2 : sweepList (sortEvents (eventsFromLayer layer)) emptyIndex ⟨[]⟩ with
    | error e => simp [Except.map]
    | ok p => simp [Except.map]

/-- C8.  A successful call to count_crossings or wire_crossings leaves
the verifier with performed = true, so any second call to either method
fails (the source's bare raise, RuntimeError in Python 3). -/
theorem C8_single_use (v v2 : CrossVerifier)
    (h : (∃ n, v.count_crossings = .ok (n, v2)) ∨
         (∃ rs, v.wire_crossings = .ok (rs, v2))) :
    v2.count_crossings = .error .runtimeError ∧
    v2.wire_crossings = .error .runtimeError := by
  have hp : v2.performed = true := by
    rcases h with ⟨n, h⟩ | ⟨rs, h⟩
    · by_cases hv : v.performed = true
      · simp [CrossVerifier.count_crossings, hv] at h
      · simp only [CrossVerifier.count_crossings, hv, if_false, Bool.false_eq_true] at h
        cases hm : sweepCount v.events v.index 0 with
        | error e => simp [hm] at h
        | ok p =>
          obtain ⟨a, b⟩ := p
          rw [hm] at h
          simp only [Except.ok.injEq, Prod.mk.injEq] at h
          rw [← h.2]
    · by_cases hv : v.performed = true
      · simp [CrossVerifier.wire_crossings, hv] at h
      · simp only [CrossVerifier.wire_crossings, hv, if_false, Bool.false_eq_true] at h
        cases hm : sweepList v.events v.index v.result_set with
        | error e => simp [hm] at h
        | ok p =>
          obtain ⟨a, b⟩ := p
          rw [hm] at h
          simp only [Except.ok.injEq, Prod.mk.injEq] at h
          rw [← h.2]
  exact ⟨by simp [CrossVerifier.count_crossings, hp],
         by simp [CrossVerifier.wire_crossings, hp]⟩

/-- C8 witness: the concrete scenario-1 verifier v0 succeeds once
(count 1, post-state v1) and then both methods fail on v1. -/
theorem C8_single_use_witness :
    v1.count_crossings = .error .runtimeError ∧
    v1.wire_crossings = .error .runtimeError :=
  C8_single_use v0 v1 (.inl ⟨1, by rfl⟩)

/-- A non-horizontal wire only intersects horizontal wires. -/
theorem intersects_horiz {w cw : Wire} (hw : w.is_horizontal = false)
    (hi : w.intersects cw = true) : cw.is_horizontal = true := by
  cases hch : cw.is_horizontal
  · rw [Wire.intersects, hw, hch] at hi
    simp at hi
  · rfl

/-- Membership in the per-layer event list. -/
theorem mem_eventsFromLayer {e : Event} :
    ∀ {layer : List Wire}, e ∈ eventsFromLayer layer ↔ ∃ w ∈ layer, e ∈ eventsFromWire w := by
  intro layer
  induction layer with
  | nil => simp [eventsFromLayer]
  | cons w ws ih => simp [eventsFromLayer, ih, or_and_right, exists_or]

/-- A query event comes from a non-horizontal wire and carries it. -/
theorem query_shape {e : Event} {w : Wire} (he : e ∈ eventsFromWire w)
    (hq : e.etype = .query) : w.is_horizontal = false ∧ e.wire = w := by
  unfold eventsFromWire at he
  by_cases hh : w.is_horizontal = true
  · simp only [hh, if_true] at he
    rcases List.mem_pair.1 he with rfl | rfl <;> simp [addEvent, delEvent] at hq
  · simp [hh] at he
    subst he
    exact ⟨by simpa using hh, rfl⟩

/-- Sorting the events does not change membership. -/
theorem mem_sortEvents {e : Event} {es : List Event} : e ∈ sortEvents es ↔ e ∈ es :=
  (List.perm_insertionSort EvLE es).mem_iff

/-- Every crossing that the listing sweep adds to the accumulator is a
GoodPair, provided query events carry vertical wires. -/
theorem sweepList_sound (es : List Event) :
    ∀ (idx : RangeIndex) (rs out : ResultSet) (idxO : RangeIndex),
    (∀ e ∈ es, e.etype = .query → e.wire.is_horizontal = false ∧ e.wire.is_vertical = true) →
    (∀ p ∈ rs.crossings, GoodPair p) →
    sweepList es idx rs = .ok (out, idxO) →
    ∀ p ∈ out.crossings, GoodPair p := by
  induction es with
  | nil =>
    intro idx rs out idxO hq hg h
    simp only [sweepList, Except.ok.injEq, Prod.mk.injEq] at h
    rw [← h.1]
    exact hg
  | cons e es ih =>
    intro idx rs out idxO hq hg h
    have hqtail : ∀ e2 ∈ es, e2.etype = .query →
        e2.wire.is_horizontal = false ∧ e2.wire.is_vertical = true :=
      fun e2 he2 => hq e2 (List.mem_cons_of_mem _ he2)
    cases het : e.etype
    · rw [sweepList, het] at h
      exact ih _ _ _ _ hqtail hg h
    · rw [sweepList, het] at h
      apply ih _ _ _ _ hqtail _ h
      intro p hp
      rw [foldl_add_crossing] at hp
      rcases List.mem_append.1 hp with hp | hp
      · exact hg p hp
      · obtain ⟨cw, hcw, rfl⟩ := List.mem_map.1 hp
        unfold queryCross at hcw
        obtain ⟨kwp, hk, rfl⟩ := List.mem_map.1 hcw
        have hint : e.wire.intersects kwp.wire = true := (List.mem_filter.1 hk).2
        have hqe := hq e (List.mem_cons_self _ _) het
        exact ⟨e.wire, kwp.wire, hqe.2, intersects_horiz hqe.1 hint, hint, rfl⟩
    · rw [sweepList, het] at h
      cases hrem : RangeIndex.remove idx ⟨e.wire.y1, e.wire⟩ with
      | error err => rw [hrem] at h; exact absurd h (by simp)
      | ok idx2 =>
        rw [hrem] at h
        exact ih _ _ _ _ hqtail hg h

/-- C10.  Every pair recorded by wire_crossings on a fresh verifier is
the canonical name pair of one vertical and one horizontal wire that
genuinely intersect per Wire.intersects. -/
theorem C10_sound (layer : List Wire) (res : List (String × String))
    (hv : ∀ w ∈ layer, w.is_horizontal = true ∨ w.is_vertical = true)
    (h : crossingsFresh layer = .ok res) :
    ∀ p ∈ res, GoodPair p := by
  unfold crossingsFresh mkVerifier at h
  by_cases hl : layer.isEmpty
  · simp [hl] at h
  · simp only [hl, if_false, Bool.false_eq_true] at h
    simp only [CrossVerifier.wire_crossings] at h
    cases hsw : sweepList (sortEvents (eventsFromLayer layer)) emptyIndex ⟨[]⟩ with
    | error e => rw [hsw] at h; exact absurd h (by simp)
    | ok p =>
      obtain ⟨rs, idxO⟩ := p
      rw [hsw] at h
      simp at h
      rw [← h]
      apply sweepList_sound _ _ _ _ _ _ (by simp) hsw
      intro e he hq
      obtain ⟨w, hwmem, hwe⟩ := mem_eventsFromLayer.1 (mem_sortEvents.1 he)
      obtain ⟨hnh, hew⟩ := query_shape hwe hq
      rw [hew]
      refine ⟨hnh, ?_⟩
      rcases hv w hwmem with hh | hvv
      · rw [hh] at hnh; exact absurd hnh (by simp)
      · exact hvv

/-- C10 witness: at the scenario-1 layer, the single reported pair is a
genuine vertical/horizontal crossing. -/
theorem C10_sound_witness : GoodPair ("H", "V") :=
  C10_sound layer0 [("H", "V")] (by decide) (by rfl) ("H", "V") (by simp)

/-- Unfolding of the embedded __lt__. -/
theorem kwpLt_iff {a b : KeyWirePair} :
    kwpLt a b = true ↔ (a.key < b.key ∨ (a.key = b.key ∧ a.wire_id < b.wire_id)) := by
  simp [kwpLt]

/-- Unfolding of the embedded __le__. -/
theorem kwpLe_iff {a b : KeyWirePair} :
    kwpLe a b = true ↔ (a.key < b.key ∨ (a.key = b.key ∧ a.wire_id ≤ b.wire_id)) := by
  simp [kwpLe]

/-- Unfolding of the embedded __gt__. -/
theorem kwpGt_iff {a b : KeyWirePair} :
    kwpGt a b = true ↔ (b.key < a.key ∨ (a.key = b.key ∧ b.wire_id < a.wire_id)) := by
  simp [kwpGt]

/-- Unfolding of the embedded __eq__. -/
theorem kwpEq_iff {a b : KeyWirePair} :
    kwpEq a b = true ↔ (a.key = b.key ∧ a.wire_id = b.wire_id) := by
  simp [kwpEq]

/-- __eq__ is reflexive. -/
theorem kwpEq_refl (a : KeyWirePair) : kwpEq a a = true := by
  simp [kwpEq]

/-- Keys after an insert: an old key or the inserted one. -/
theorem treeInsert_keys_subset : ∀ (t : Tree) (k x : KeyWirePair),
    x ∈ keys (treeInsert t k).2 → x ∈ keys t ∨ x = k
  | .nil, k, x => by
    simp [treeInsert, keys]
  | .node l key r, k, x => by
    intro hx
    by_cases h1 : kwpEq key k = true
    · simp only [treeInsert, h1, if_true] at hx
      exact .inl hx
    · by_cases h2 : kwpGt key k = true
      · simp only [treeInsert, h1, h2, if_true, if_false, Bool.false_eq_true, keys,
          List.mem_append, List.mem_singleton] at hx ⊢
        rcases hx with (hx | hx) | hx
        · rcases treeInsert_keys_subset l k x hx with h | h
          · exact .inl (.inl (.inl h))
          · exact .inr h
        · exact .inl (.inl (.inr hx))
        · exact .inl (.inr hx)
      · simp only [treeInsert, h1, h2, if_true, if_false, Bool.false_eq_true, keys,
          List.mem_append, List.mem_singleton] at hx ⊢
        rcases hx with (hx | hx) | hx
        · exact .inl (.inl (.inl hx))
        · exact .inl (.inl (.inr hx))
        · rcases treeInsert_keys_subset r k x hx with h | h
          · exact .inl (.inr h)
          · exact .inr h

/-- Old keys survive an insert. -/
theorem treeInsert_keys_mono : ∀ (t : Tree) (k x : KeyWirePair),
    x ∈ keys t → x ∈ keys (treeInsert t k).2
  | .nil, k, x => by simp [keys]
  | .node l key r, k, x => by
    intro hx
    by_cases h1 : kwpEq key k = true
    · simpa [treeInsert, h1] using hx
    · by_cases h2 : kwpGt key k = true
      · simp only [treeInsert, h1, h2, if_true, if_false, Bool.false_eq_true, keys,
          List.mem_append, List.mem_singleton] at hx ⊢
        rcases hx with (hx | hx) | hx
        · exact .inl (.inl (treeInsert_keys_mono l k x hx))
        · exact .inl (.inr hx)
        · exact .inr hx
      · simp only [treeInsert, h1, h2, if_true, if_false, Bool.false_eq_true, keys,
          List.mem_append, List.mem_singleton] at hx ⊢
        rcases hx with (hx | hx) | hx
        · exact .inl (.inl hx)
        · exact .inl (.inr hx)
        · exact .inr (treeInsert_keys_mono r k x hx)

/-- Insert preserves the search ordering. -/
theorem treeInsert_ordered : ∀ (t : Tree) (k : KeyWirePair),
    OrderedT t → OrderedT (treeInsert t k).2
  | .nil, k, _ => by simp [treeInsert, OrderedT, keys]
  | .node l key r, k, ho => by
    obtain ⟨hol, hor, hlt, hge⟩ := ho
    by_cases h1 : kwpEq key k = true
    · simpa [treeInsert, h1] using ⟨hol, hor, hlt, hge⟩
    · by_cases h2 : kwpGt key k = true
      · simp only [treeInsert, h1, h2, if_true, if_false, Bool.false_eq_true, OrderedT]
        refine ⟨treeInsert_ordered l k hol, hor, ?_, hge⟩
        intro x hx
        rcases treeInsert_keys_subset l k x hx with h | h
        · exact hlt x h
        · subst h
          rw [kwpLt_iff]
          rw [kwpGt_iff] at h2
          omega
      · simp only [treeInsert, h1, h2, if_true, if_false, Bool.false_eq_true, OrderedT]
        refine ⟨hol, treeInsert_ordered r k hor, hlt, ?_⟩
        intro x hx
        rcases treeInsert_keys_subset r k x hx with h | h
        · exact hge x h
        · subst h
          rw [kwpLe_iff]
          rw [Bool.not_eq_true] at h1 h2
          rw [← Bool.not_eq_true, kwpGt_iff] at h2
          rw [← Bool.not_eq_true, kwpEq_iff] at h1
          omega

/-- The inserted key is present (up to __eq__) after an insert. -/
theorem treeInsert_memEq_self : ∀ (t : Tree) (k : KeyWirePair),
    memEq k (treeInsert t k).2
  | .nil, k => by
    refine ⟨k, ?_, kwpEq_refl k⟩
    simp [treeInsert, keys]
  | .node l key r, k => by
    by_cases h1 : kwpEq key k = true
    · refine ⟨key, ?_, h1⟩
      simp [treeInsert, h1, keys]
    · by_cases h2 : kwpGt key k = true
      · obtain ⟨y, hy, hyk⟩ := treeInsert_memEq_self l k
        refine ⟨y, ?_, hyk⟩
        simp only [treeInsert, h1, h2, if_true, if_false, Bool.false_eq_true, keys,
          List.mem_append]
        exact .inl (.inl hy)
      · obtain ⟨y, hy, hyk⟩ := treeInsert_memEq_self r k
        refine ⟨y, ?_, hyk⟩
        simp only [treeInsert, h1, h2, if_true, if_false, Bool.false_eq_true, keys,
          List.mem_append]
        exact .inr hy

/-- Present keys remain present (up to __eq__) after an insert. -/
theorem treeInsert_memEq_mono (t : Tree) (k k2 : KeyWirePair) (h : memEq k2 t) :
    memEq k2 (treeInsert t k).2 := by
  obtain ⟨y, hy, hyk⟩ := h
  exact ⟨y, treeInsert_keys_mono t k y hy, hyk⟩

/-- __le__ is reflexive. -/
theorem kwpLe_refl (a : KeyWirePair) : kwpLe a a = true := by
  simp [kwpLe]

/-- __lt__ implies __le__. -/
theorem kwpLe_of_lt {a b : KeyWirePair} (h : kwpLt a b = true) : kwpLe a b = true := by
  rw [kwpLt_iff] at h
  rw [kwpLe_iff]
  omega

/-- __le__ is transitive. -/
theorem kwpLe_trans {a b c : KeyWirePair} (h1 : kwpLe a b = true) (h2 : kwpLe b c = true) :
    kwpLe a c = true := by
  rw [kwpLe_iff] at h1 h2 ⊢
  omega

/-- A strict step absorbs a lax one. -/
theorem kwpLt_of_lt_of_le {a b c : KeyWirePair} (h1 : kwpLt a b = true)
    (h2 : kwpLe b c = true) : kwpLt a c = true := by
  rw [kwpLt_iff] at h1 ⊢
  rw [kwpLe_iff] at h2
  omega

/-- __gt__ is the flipped __lt__. -/
theorem kwpGt_iff_lt {a b : KeyWirePair} : kwpGt a b = true ↔ kwpLt b a = true := by
  rw [kwpGt_iff, kwpLt_iff]
  omega

/-- Distinct keys (per __eq__) compare strictly one way or the other. -/
theorem kwp_trichot {a b : KeyWirePair} (h : kwpEq a b = false) :
    kwpLt a b = true ∨ kwpLt b a = true := by
  have h1 : ¬(kwpEq a b = true) := by simp [h]
  rw [kwpEq_iff] at h1
  rw [kwpLt_iff, kwpLt_iff]
  omega

/-- Membership in a node's keys, one level at a time. -/
theorem mem_keys_node {x : KeyWirePair} {l : Tree} {k : KeyWirePair} {r : Tree} :
    x ∈ keys (Tree.node l k r) ↔ (x ∈ keys l ∨ x = k ∨ x ∈ keys r) := by
  simp [keys]

/-- The empty tree has no keys. -/
theorem not_mem_keys_nil {x : KeyWirePair} : x ∈ keys Tree.nil → False := by
  simp [keys]

/-- The comparison-guarded successor removal of BSTree.remove: on an
ordered parent whose left child pl is a node, it returns the minimum
key under the parent together with the parent subtree with one
occurrence of that minimum removed (the source's equal-key splice
branches cannot fire on an ordered tree). -/
theorem remMin_spec : ∀ (pl : Tree) (pk : KeyWirePair) (pr : Tree),
    pl ≠ .nil → OrderedT (.node pl pk pr) →
    OrderedT (remMin pl pk pr).2 ∧
    (remMin pl pk pr).1 ∈ keys (Tree.node pl pk pr) ∧
    (∀ x ∈ keys (Tree.node pl pk pr), kwpLe (remMin pl pk pr).1 x = true) ∧
    (∀ x ∈ keys (remMin pl pk pr).2, x ∈ keys (Tree.node pl pk pr)) ∧
    (∀ x ∈ keys (Tree.node pl pk pr),
      x ∈ keys (remMin pl pk pr).2 ∨ x = (remMin pl pk pr).1)
  | .nil, pk, pr => by intro h; exact absurd rfl h
  | .node .nil dk dr, pk, pr => by
    intro _ ho
    obtain ⟨⟨_, hodr, _, hdkr⟩, hopr, hlt, hge⟩ := ho
    have hdkpk : kwpLt dk pk = true := hlt dk (mem_keys_node.2 (.inr (.inl rfl)))
    by_cases hdr : dr = Tree.nil
    · subst hdr
      simp only [remMin, if_true, hdkpk, reduceIte]
      refine ⟨⟨trivial, hopr, ?_, hge⟩, ?_, ?_, ?_, ?_⟩
      · intro x hx
        exact absurd hx not_mem_keys_nil
      · exact mem_keys_node.2 (.inl (mem_keys_node.2 (.inr (.inl rfl))))
      · intro x hx
        rcases mem_keys_node.1 hx with hx | rfl | hx
        · rcases mem_keys_node.1 hx with hx | rfl | hx
          · exact absurd hx not_mem_keys_nil
          · exact kwpLe_refl x
          · exact absurd hx not_mem_keys_nil
        · exact kwpLe_of_lt hdkpk
        · exact kwpLe_trans (kwpLe_of_lt hdkpk) (hge x hx)
      · intro x hx
        rcases mem_keys_node.1 hx with hx | rfl | hx
        · exact absurd hx not_mem_keys_nil
        · exact mem_keys_node.2 (.inr (.inl rfl))
        · exact mem_keys_node.2 (.inr (.inr hx))
      · intro x hx
        rcases mem_keys_node.1 hx with hx | rfl | hx
        · rcases mem_keys_node.1 hx with hx | rfl | hx
          · exact absurd hx not_mem_keys_nil
          · exact .inr rfl
          · exact absurd hx not_mem_keys_nil
        · exact .inl (mem_keys_node.2 (.inr (.inl rfl)))
        · exact .inl (mem_keys_node.2 (.inr (.inr hx)))
    · have hgt : kwpGt pk dk = true := kwpGt_iff_lt.2 hdkpk
      simp only [remMin, hdr, if_false, hgt, reduceIte]
      refine ⟨⟨hodr, hopr, ?_, hge⟩, ?_, ?_, ?_, ?_⟩
      · intro x hx
        exact hlt x (mem_keys_node.2 (.inr (.inr hx)))
      · exact mem_keys_node.2 (.inl (mem_keys_node.2 (.inr (.inl rfl))))
      · intro x hx
        rcases mem_keys_node.1 hx with hx | rfl | hx
        · rcases mem_keys_node.1 hx with hx | rfl | hx
          · exact absurd hx not_mem_keys_nil
          · exact kwpLe_refl x
          · exact hdkr x hx
        · exact kwpLe_of_lt hdkpk
        · exact kwpLe_trans (kwpLe_of_lt hdkpk) (hge x hx)
      · intro x hx
        rcases mem_keys_node.1 hx with hx | rfl | hx
        · exact mem_keys_node.2 (.inl (mem_keys_node.2 (.inr (.inr hx))))
        · exact mem_keys_node.2 (.inr (.inl rfl))
        · exact mem_keys_node.2 (.inr (.inr hx))
      · intro x hx
        rcases mem_keys_node.1 hx with hx | rfl | hx
        · rcases mem_keys_node.1 hx with hx | rfl | hx
          · exact absurd hx not_mem_keys_nil
          · exact .inr rfl
          · exact .inl (mem_keys_node.2 (.inl hx))
        · exact .inl (mem_keys_node.2 (.inr (.inl rfl)))
        · exact .inl (mem_keys_node.2 (.inr (.inr hx)))
  | .node (.node a b c) dk dr, pk, pr => by
    intro _ ho
    obtain ⟨hopl, hopr, hlt, hge⟩ := ho
    obtain ⟨ho2, hm2, hmin2, ha2, hb2⟩ :=
      remMin_spec (.node a b c) dk dr (by simp) hopl
    simp only [remMin]
    have hmlt : kwpLt (remMin (.node a b c) dk dr).1 pk = true := hlt _ hm2
    refine ⟨⟨ho2, hopr, ?_, hge⟩, ?_, ?_, ?_, ?_⟩
    · intro x hx
      exact hlt x (ha2 x hx)
    · exact mem_keys_node.2 (.inl hm2)
    · intro x hx
      rcases mem_keys_node.1 hx with hx | rfl | hx
      · exact hmin2 x hx
      · exact kwpLe_of_lt hmlt
      · exact kwpLe_trans (kwpLe_of_lt hmlt) (hge x hx)
    · intro x hx
      rcases mem_keys_node.1 hx with hx | rfl | hx
      · exact mem_keys_node.2 (.inl (ha2 x hx))
      · exact mem_keys_node.2 (.inr (.inl rfl))
      · exact mem_keys_node.2 (.inr (.inr hx))
    · intro x hx
      rcases mem_keys_node.1 hx with hx | rfl | hx
      · rcases hb2 x hx with h | h
        · exact .inl (mem_keys_node.2 (.inl h))
        · exact .inr h
      · exact .inl (mem_keys_node.2 (.inr (.inl rfl)))
      · exact .inl (mem_keys_node.2 (.inr (.inr hx)))

/-- __eq__ is symmetric. -/
theorem kwpEq_symm {a b : KeyWirePair} (h : kwpEq a b = true) : kwpEq b a = true := by
  rw [kwpEq_iff] at h ⊢
  omega

/-- __eq__ is transitive. -/
theorem kwpEq_trans {a b c : KeyWirePair} (h1 : kwpEq a b = true) (h2 : kwpEq b c = true) :
    kwpEq a c = true := by
  rw [kwpEq_iff] at h1 h2 ⊢
  omega

/-- __lt__ respects __eq__ on the left. -/
theorem kwpLt_congr_left {a b c : KeyWirePair} (he : kwpEq a b = true)
    (h : kwpLt a c = true) : kwpLt b c = true := by
  rw [kwpEq_iff] at he
  rw [kwpLt_iff] at h ⊢
  omega

/-- BSTree.remove on an ordered tree that contains the key (up to
__eq__) succeeds; the result is still ordered, every other key value is
still present, and no new key values appear. -/
theorem treeRemove_ok : ∀ (t : Tree) (k : KeyWirePair),
    OrderedT t → memEq k t →
    ∃ t2, treeRemove t k = .ok t2 ∧ OrderedT t2 ∧
      (∀ x ∈ keys t, kwpEq x k = false → ∃ y ∈ keys t2, kwpEq y x = true) ∧
      (∀ x ∈ keys t2, ∃ y ∈ keys t, kwpEq y x = true)
  | .nil, k => by
    intro _ hm
    obtain ⟨y, hy, _⟩ := hm
    exact absurd hy not_mem_keys_nil
  | .node l key r, k => by
    intro ho hm
    obtain ⟨hol, hor, hlt, hge⟩ := ho
    obtain ⟨y, hy, hyk⟩ := hm
    by_cases h1 : kwpEq key k = true
    · -- the loop stops here; removeNodeCase dispatches on the children
      refine ⟨removeNodeCase l r, by simp [treeRemove, h1], ?_⟩
      cases l with
      | nil =>
        cases r with
        | nil =>
          refine ⟨trivial, ?_, ?_⟩
          · intro x hx hxk
            rcases mem_keys_node.1 hx with hx | rfl | hx
            · exact absurd hx not_mem_keys_nil
            · rw [h1] at hxk; cases hxk
            · exact absurd hx not_mem_keys_nil
          · intro x hx
            exact absurd hx not_mem_keys_nil
        | node rl rk rr =>
          refine ⟨hor, ?_, ?_⟩
          · intro x hx hxk
            rcases mem_keys_node.1 hx with hx | rfl | hx
            · exact absurd hx not_mem_keys_nil
            · rw [h1] at hxk; cases hxk
            · exact ⟨x, hx, kwpEq_refl x⟩
          · intro x hx
            exact ⟨x, mem_keys_node.2 (.inr (.inr hx)), kwpEq_refl x⟩
      | node ll lk lr =>
        cases r with
        | nil =>
          refine ⟨hol, ?_, ?_⟩
          · intro x hx hxk
            rcases mem_keys_node.1 hx with hx | rfl | hx
            · exact ⟨x, hx, kwpEq_refl x⟩
            · rw [h1] at hxk; cases hxk
            · exact absurd hx not_mem_keys_nil
          · intro x hx
            exact ⟨x, mem_keys_node.2 (.inl hx), kwpEq_refl x⟩
        | node rl rk rr =>
          have hkeyrk : kwpLe key rk = true := hge rk (mem_keys_node.2 (.inr (.inl rfl)))
          cases rl with
          | nil =>
            obtain ⟨_, horr, _, hrkrr⟩ := hor
            cases rr with
            | nil =>
              -- delNode = r itself, no children: parent.rightChild := None
              refine ⟨⟨hol, trivial, ?_, ?_⟩, ?_, ?_⟩
              · intro x hx
                exact kwpLt_of_lt_of_le (hlt x hx) hkeyrk
              · intro x hx
                exact absurd hx not_mem_keys_nil
              · intro x hx hxk
                rcases mem_keys_node.1 hx with hx | rfl | hx
                · exact ⟨x, mem_keys_node.2 (.inl hx), kwpEq_refl x⟩
                · rw [h1] at hxk; cases hxk
                · rcases mem_keys_node.1 hx with hx | rfl | hx
                  · exact absurd hx not_mem_keys_nil
                  · exact ⟨x, mem_keys_node.2 (.inr (.inl rfl)), kwpEq_refl x⟩
                  · exact absurd hx not_mem_keys_nil
              · intro x hx
                rcases mem_keys_node.1 hx with hx | rfl | hx
                · exact ⟨x, mem_keys_node.2 (.inl hx), kwpEq_refl x⟩
                · exact ⟨x, mem_keys_node.2 (.inr (.inr (mem_keys_node.2 (.inr (.inl rfl))))),
                    kwpEq_refl x⟩
                · exact absurd hx not_mem_keys_nil
            | node u vv ww =>
              -- the source's no-splice branch: r stays attached under the
              -- overwritten key, duplicating rk
              refine ⟨⟨hol, ⟨trivial, horr, ?_, ?_⟩, ?_, ?_⟩, ?_, ?_⟩
              · intro x hx
                exact absurd hx not_mem_keys_nil
              · intro x hx
                exact hrkrr x hx
              · intro x hx
                exact kwpLt_of_lt_of_le (hlt x hx) hkeyrk
              · intro x hx
                rcases mem_keys_node.1 hx with hx | rfl | hx
                · exact absurd hx not_mem_keys_nil
                · exact kwpLe_refl x
                · exact hrkrr x hx
              · intro x hx hxk
                rcases mem_keys_node.1 hx with hx | rfl | hx
                · exact ⟨x, mem_keys_node.2 (.inl hx), kwpEq_refl x⟩
                · rw [h1] at hxk; cases hxk
                · rcases mem_keys_node.1 hx with hx | rfl | hx
                  · exact absurd hx not_mem_keys_nil
                  · exact ⟨x, mem_keys_node.2 (.inr (.inl rfl)), kwpEq_refl x⟩
                  · exact ⟨x, mem_keys_node.2 (.inr (.inr (mem_keys_node.2 (.inr (.inr hx))))),
                      kwpEq_refl x⟩
              · intro x hx
                rcases mem_keys_node.1 hx with hx | rfl | hx
                · exact ⟨x, mem_keys_node.2 (.inl hx), kwpEq_refl x⟩
                · exact ⟨x, mem_keys_node.2 (.inr (.inr (mem_keys_node.2 (.inr (.inl rfl))))),
                    kwpEq_refl x⟩
                · rcases mem_keys_node.1 hx with hx | rfl | hx
                  · exact absurd hx not_mem_keys_nil
                  · exact ⟨x, mem_keys_node.2 (.inr (.inr (mem_keys_node.2 (.inr (.inl rfl))))),
                      kwpEq_refl x⟩
                  · exact ⟨x, mem_keys_node.2 (.inr (.inr (mem_keys_node.2 (.inr (.inr hx))))),
                      kwpEq_refl x⟩
          | node u vv ww =>
            -- genuine successor removal inside r
            obtain ⟨ho2, hm2, hmin2, ha2, hb2⟩ :=
              remMin_spec (.node u vv ww) rk rr (by simp) hor
            refine ⟨⟨hol, ho2, ?_, ?_⟩, ?_, ?_⟩
            · intro x hx
              exact kwpLt_of_lt_of_le (hlt x hx) (hge _ hm2)
            · intro x hx
              exact hmin2 x (ha2 x hx)
            · intro x hx hxk
              rcases mem_keys_node.1 hx with hx | rfl | hx
              · exact ⟨x, mem_keys_node.2 (.inl hx), kwpEq_refl x⟩
              · rw [h1] at hxk; cases hxk
              · rcases hb2 x hx with h | h
                · exact ⟨x, mem_keys_node.2 (.inr (.inr h)), kwpEq_refl x⟩
                · exact ⟨x, mem_keys_node.2 (.inr (.inl h)), kwpEq_refl x⟩
            · intro x hx
              rcases mem_keys_node.1 hx with hx | rfl | hx
              · exact ⟨x, mem_keys_node.2 (.inl hx), kwpEq_refl x⟩
              · exact ⟨(remMin (.node u vv ww) rk rr).1,
                  mem_keys_node.2 (.inr (.inr hm2)), kwpEq_refl _⟩
              · exact ⟨x, mem_keys_node.2 (.inr (.inr (ha2 x hx))), kwpEq_refl x⟩
    · have h1f : kwpEq key k = false := by simpa using h1
      have hyknotkey : y = key → False := by
        intro he
        rw [he] at hyk
        exact h1 hyk
      by_cases h2 : kwpLt k key = true
      · -- descend left
        have hml : memEq k l := by
          rcases mem_keys_node.1 hy with hyl | rfl | hyr
          · exact ⟨y, hyl, hyk⟩
          · exact absurd rfl hyknotkey
          · exfalso
            have hky := hge y hyr
            rw [kwpLe_iff] at hky
            rw [kwpEq_iff] at hyk
            rw [kwpLt_iff] at h2
            omega
        obtain ⟨l2, hrem, hol2, hpres, hrev⟩ := treeRemove_ok l k hol hml
        refine ⟨.node l2 key r, ?_, ⟨hol2, hor, ?_, hge⟩, ?_, ?_⟩
        · simp only [treeRemove, h1f, Bool.false_eq_true, if_false, h2, if_true, hrem]
        · intro x hx
          obtain ⟨y2, hy2, hy2x⟩ := hrev x hx
          exact kwpLt_congr_left hy2x (hlt y2 hy2)
        · intro x hx hxk
          rcases mem_keys_node.1 hx with hx | rfl | hx
          · obtain ⟨y2, hy2, hy2x⟩ := hpres x hx hxk
            exact ⟨y2, mem_keys_node.2 (.inl hy2), hy2x⟩
          · exact ⟨x, mem_keys_node.2 (.inr (.inl rfl)), kwpEq_refl x⟩
          · exact ⟨x, mem_keys_node.2 (.inr (.inr hx)), kwpEq_refl x⟩
        · intro x hx
          rcases mem_keys_node.1 hx with hx | rfl | hx
          · obtain ⟨y2, hy2, hy2x⟩ := hrev x hx
            exact ⟨y2, mem_keys_node.2 (.inl hy2), hy2x⟩
          · exact ⟨x, mem_keys_node.2 (.inr (.inl rfl)), kwpEq_refl x⟩
          · exact ⟨x, mem_keys_node.2 (.inr (.inr hx)), kwpEq_refl x⟩
      · -- descend right
        have h2f : kwpLt k key = false := by simpa using h2
        have hmr : memEq k r := by
          rcases mem_keys_node.1 hy with hyl | rfl | hyr
          · exfalso
            have hky := hlt y hyl
            rw [kwpLt_iff] at hky
            rw [kwpEq_iff] at hyk
            have h1' : ¬(kwpEq key k = true) := h1
            rw [kwpEq_iff] at h1'
            have h2' : ¬(kwpLt k key = true) := h2
            rw [kwpLt_iff] at h2'
            omega
          · exact absurd rfl hyknotkey
          · exact ⟨y, hyr, hyk⟩
        obtain ⟨r2, hrem, hor2, hpres, hrev⟩ := treeRemove_ok r k hor hmr
        refine ⟨.node l key r2, ?_, ⟨hol, hor2, hlt, ?_⟩, ?_, ?_⟩
        · simp only [treeRemove, h1f, Bool.false_eq_true, if_false, h2f, hrem]
        · intro x hx
          obtain ⟨y2, hy2, hy2x⟩ := hrev x hx
          rw [kwpEq_iff] at hy2x
          have := hge y2 hy2
          rw [kwpLe_iff] at this ⊢
          omega
        · intro x hx hxk
          rcases mem_keys_node.1 hx with hx | rfl | hx
          · exact ⟨x, mem_keys_node.2 (.inl hx), kwpEq_refl x⟩
          · exact ⟨x, mem_keys_node.2 (.inr (.inl rfl)), kwpEq_refl x⟩
          · obtain ⟨y2, hy2, hy2x⟩ := hpres x hx hxk
            exact ⟨y2, mem_keys_node.2 (.inr (.inr hy2)), hy2x⟩
        · intro x hx
          rcases mem_keys_node.1 hx with hx | rfl | hx
          · exact ⟨x, mem_keys_node.2 (.inl hx), kwpEq_refl x⟩
          · exact ⟨x, mem_keys_node.2 (.inr (.inl rfl)), kwpEq_refl x⟩
          · obtain ⟨y2, hy2, hy2x⟩ := hrev x hx
            exact ⟨y2, mem_keys_node.2 (.inr (.inr hy2)), hy2x⟩

/-- The sorted event list is pairwise ordered by the event order. -/
theorem sortEvents_sorted (es : List Event) : (sortEvents es).Pairwise EvLE :=
  List.sorted_insertionSort EvLE es

/-- DelNe is symmetric. -/
theorem delNe_symm : Symmetric DelNe :=
  fun _ _ h hb ha => Ne.symm (h ha hb)

/-- Sorting preserves the pairwise distinctness of delete tie-breaks. -/
theorem sortEvents_pairwise_delNe {es : List Event} (h : es.Pairwise DelNe) :
    (sortEvents es).Pairwise DelNe :=
  ((List.perm_insertionSort EvLE es).pairwise_iff
    (fun hxy hyd hxd => Ne.symm (hxy hxd hyd))).2 h

/-- Every event of a wire carries that wire. -/
theorem eventsFromWire_wire {e : Event} {w : Wire} (he : e ∈ eventsFromWire w) :
    e.wire = w := by
  unfold eventsFromWire at he
  by_cases hh : w.is_horizontal = true
  · simp only [hh, if_true] at he
    rcases List.mem_pair.1 he with rfl | rfl <;> rfl
  · simp [hh] at he
    subst he
    rfl

/-- The exact shapes of a wire's events. -/
theorem mem_eventsFromWire_cases {e : Event} {w : Wire} (he : e ∈ eventsFromWire w) :
    (w.is_horizontal = true ∧ (e = addEvent w ∨ e = delEvent w)) ∨
    (w.is_horizontal = false ∧ e = queryEvent w) := by
  unfold eventsFromWire at he
  by_cases hh : w.is_horizontal = true
  · simp only [hh, if_true] at he
    exact .inl ⟨hh, List.mem_pair.1 he⟩
  · simp [hh] at he
    exact .inr ⟨by simpa using hh, he⟩

/-- The events of a layer with pairwise-distinct wire ids have pairwise
distinct delete tie-breaks. -/
theorem eventsFromLayer_pairwise_delNe : ∀ (layer : List Wire),
    layer.Pairwise (fun a b => a.object_id ≠ b.object_id) →
    (eventsFromLayer layer).Pairwise DelNe
  | [], _ => List.Pairwise.nil
  | w :: ws, h => by
    rw [List.pairwise_cons] at h
    rw [eventsFromLayer, List.pairwise_append]
    refine ⟨?_, eventsFromLayer_pairwise_delNe ws h.2, ?_⟩
    · unfold eventsFromWire
      by_cases hh : w.is_horizontal = true <;> simp [hh]
      intro hd
      simp [addEvent, delEvent] at hd
    · intro a ha b hb
      intro had hbd
      rw [eventsFromWire_wire ha]
      obtain ⟨w2, hw2, hbw2⟩ := mem_eventsFromLayer.1 hb
      rw [eventsFromWire_wire hbw2]
      exact h.1 w2 hw2

/-- In a layer's event list, every delete event's add event is present. -/
theorem eventsFromLayer_add_present {layer : List Wire} :
    ∀ e ∈ eventsFromLayer layer, e.etype = .delete →
      addEvent e.wire ∈ eventsFromLayer layer := by
  intro e he hd
  obtain ⟨w, hw, hew⟩ := mem_eventsFromLayer.1 he
  rcases mem_eventsFromWire_cases hew with ⟨hh, rfl | rfl⟩ | ⟨_, rfl⟩
  · simp [addEvent] at hd
  · refine mem_eventsFromLayer.2 ⟨w, hw, ?_⟩
    unfold eventsFromWire addEvent delEvent
    simp [hh]
  · simp [queryEvent] at hd

/-- Delete events of a well-formed layer sit at the wire's right end,
with a normalized wire and phase 2. -/
theorem events_wf {layer : List Wire} (hwf : WFLayer layer) :
    ∀ e ∈ eventsFromLayer layer, e.etype = .delete →
      e.x = e.wire.x2 ∧ e.wire.x1 ≤ e.wire.x2 ∧ e.phase = 2 := by
  intro e he hd
  obtain ⟨w, hw, hew⟩ := mem_eventsFromLayer.1 he
  rcases mem_eventsFromWire_cases hew with ⟨hh, rfl | rfl⟩ | ⟨_, rfl⟩
  · simp [addEvent] at hd
  · exact ⟨rfl, (hwf.1 w hw).2.1, rfl⟩
  · simp [queryEvent] at hd

/-- The sweep cannot crash: on a sorted, delete-distinct event list
whose pending deletes are covered, every delete finds its key in the
ordered BST, so the listing sweep runs to completion. -/
theorem sweep_ok : ∀ (rest : List Event) (idx : RangeIndex) (rs : ResultSet),
    rest.Pairwise EvLE → rest.Pairwise DelNe →
    (∀ e ∈ rest, e.etype = .delete →
      e.x = e.wire.x2 ∧ e.wire.x1 ≤ e.wire.x2 ∧ e.phase = 2) →
    OrderedT idx.bst_data → pendingOK rest idx.bst_data →
    ∃ p, sweepList rest idx rs = .ok p
  | [], idx, rs, _, _, _, _, _ => ⟨(rs, idx), rfl⟩
  | e0 :: rest, idx, rs, hs, hdd, hdx, ho, hp => by
    rw [List.pairwise_cons] at hs hdd
    cases het : e0.etype
    · -- add
      rw [sweepList, het]
      apply sweep_ok rest (idx.add ⟨e0.wire.y1, e0.wire⟩) rs hs.2 hdd.2
        (fun e he => hdx e (List.mem_cons_of_mem _ he))
        (treeInsert_ordered _ _ ho)
      intro e he hde
      rcases hp e (List.mem_cons_of_mem _ he) hde with hmem | hadd
      · exact .inl (treeInsert_memEq_mono _ _ _ hmem)
      · rcases List.mem_cons.1 hadd with heq | hadd
        · refine .inl ?_
          have hwire : e.wire = e0.wire := by
            rw [← heq]
            rfl
          rw [hwire]
          exact treeInsert_memEq_self _ _
        · exact .inr hadd
    · -- query leaves the index unchanged
      rw [sweepList, het]
      apply sweep_ok rest idx _ hs.2 hdd.2
        (fun e he => hdx e (List.mem_cons_of_mem _ he)) ho
      intro e he hde
      rcases hp e (List.mem_cons_of_mem _ he) hde with hmem | hadd
      · exact .inl hmem
      · rcases List.mem_cons.1 hadd with heq | hadd
        · exfalso
          have : (addEvent e.wire).etype = EType.query := by rw [heq, het]
          simp [addEvent] at this
        · exact .inr hadd
    · -- delete
      obtain ⟨hex, hnorm, hph⟩ := hdx e0 (List.mem_cons_self _ _) het
      have hmem : memEq ⟨e0.wire.y1, e0.wire⟩ idx.bst_data := by
        rcases hp e0 (List.mem_cons_self _ _) het with hmem | hadd
        · exact hmem
        · exfalso
          rcases List.mem_cons.1 hadd with heq | hadd
          · have : (addEvent e0.wire).etype = EType.delete := by rw [heq, het]
            simp [addEvent] at this
          · have hle := hs.1 _ hadd
            rw [EvLE, eventLe, decide_eq_true_eq] at hle
            simp only [addEvent] at hle
            rw [hex, hph] at hle
            omega
      obtain ⟨t2, hrem, ho2, hpres, _⟩ := treeRemove_ok idx.bst_data ⟨e0.wire.y1, e0.wire⟩ ho hmem
      rw [sweepList, het]
      have hremidx : RangeIndex.remove idx ⟨e0.wire.y1, e0.wire⟩ = .ok ⟨idx.data, t2⟩ := by
        unfold RangeIndex.remove
        rw [hrem]
      rw [hremidx]
      apply sweep_ok rest ⟨idx.data, t2⟩ rs hs.2 hdd.2
        (fun e he => hdx e (List.mem_cons_of_mem _ he)) ho2
      intro e he hde
      rcases hp e (List.mem_cons_of_mem _ he) hde with hmem2 | hadd
      · refine .inl ?_
        obtain ⟨y, hy, hyk⟩ := hmem2
        have hid : e0.wire.object_id ≠ e.wire.object_id := hdd.1 e he het hde
        have hyk0 : kwpEq y ⟨e0.wire.y1, e0.wire⟩ = false := by
          by_contra hc
          rw [Bool.not_eq_false] at hc
          have := kwpEq_trans (kwpEq_symm hc) hyk
          rw [kwpEq_iff] at this
          apply hid
          have h2 := this.2
          simp only [KeyWirePair.wire_id] at h2
          exact_mod_cast h2
        obtain ⟨y2, hy2, hy2y⟩ := hpres y hy hyk0
        exact ⟨y2, hy2, kwpEq_trans hy2y hyk⟩
      · rcases List.mem_cons.1 hadd with heq | hadd
        · exfalso
          have : (addEvent e.wire).etype = EType.delete := by rw [heq, het]
          simp [addEvent] at this
        · exact .inr hadd

/-- Running the sweep over an appended event list composes. -/
theorem sweepList_append (l1 l2 : List Event) : ∀ (idx : RangeIndex) (rs : ResultSet),
    sweepList (l1 ++ l2) idx rs =
      match sweepList l1 idx rs with
      | .error e => .error e
      | .ok p => sweepList l2 p.2 p.1 := by
  induction l1 with
  | nil => intro idx rs; simp [sweepList]
  | cons e es ih =>
    intro idx rs
    cases het : e.etype
    · simp only [List.cons_append, sweepList, het]
      exact ih _ _
    · simp only [List.cons_append, sweepList, het]
      exact ih _ _
    · simp only [List.cons_append, sweepList, het]
      cases hrem : RangeIndex.remove idx ⟨e.wire.y1, e.wire⟩ with
      | error err => rfl
      | ok idx2 => exact ih _ _

/-- A successful sweep appends exactly the add events' keys to data
(delete events never shrink it). -/
theorem sweepList_data : ∀ (l : List Event) (idx : RangeIndex) (rs : ResultSet)
    (p : ResultSet × RangeIndex),
    sweepList l idx rs = .ok p → p.2.data = idx.data ++ addedKeys l
  | [], idx, rs, p => by
    intro h
    simp only [sweepList, Except.ok.injEq] at h
    rw [← h]
    simp [addedKeys]
  | e :: es, idx, rs, p => by
    intro h
    cases het : e.etype
    · rw [sweepList, het] at h
      rw [sweepList_data es _ _ p h]
      simp [RangeIndex.add, addedKeys, List.filterMap_cons, het]
    · rw [sweepList, het] at h
      rw [sweepList_data es _ _ p h]
      simp [addedKeys, List.filterMap_cons, het]
    · rw [sweepList, het] at h
      unfold RangeIndex.remove at h
      cases htr : treeRemove idx.bst_data ⟨e.wire.y1, e.wire⟩ with
      | error err => rw [htr] at h; exact absurd h (by simp)
      | ok t2 =>
        rw [htr] at h
        rw [sweepList_data es _ _ p h]
        simp [addedKeys, List.filterMap_cons, het]

/-- The sweep only ever appends to the crossing list. -/
theorem sweepList_mono : ∀ (l : List Event) (idx : RangeIndex) (rs : ResultSet)
    (p : ResultSet × RangeIndex),
    sweepList l idx rs = .ok p → ∃ tl, p.1.crossings = rs.crossings ++ tl
  | [], idx, rs, p => by
    intro h
    simp only [sweepList, Except.ok.injEq] at h
    rw [← h]
    exact ⟨[], by simp⟩
  | e :: es, idx, rs, p => by
    intro h
    cases het : e.etype
    · rw [sweepList, het] at h
      exact sweepList_mono es _ _ p h
    · rw [sweepList, het] at h
      obtain ⟨tl, htl⟩ := sweepList_mono es _ _ p h
      rw [htl, foldl_add_crossing]
      exact ⟨_, by rw [List.append_assoc]⟩
    · rw [sweepList, het] at h
      cases hrem : RangeIndex.remove idx ⟨e.wire.y1, e.wire⟩ with
      | error err => rw [hrem] at h; exact absurd h (by simp)
      | ok idx2 =>
        rw [hrem] at h
        exact sweepList_mono es _ _ p h

/-- The event order is reflexive. -/
theorem evLE_refl (e : Event) : EvLE e e := by
  simp [EvLE, eventLe]

/-- In a sorted list, any element b that does not sort at-or-before a
given member a splits the list with a strictly earlier. -/
theorem sorted_split : ∀ {l : List Event} {a b : Event}, l.Pairwise EvLE →
    a ∈ l → b ∈ l → ¬ EvLE b a →
    ∃ l1 l2, l = l1 ++ b :: l2 ∧ a ∈ l1 := by
  intro l
  induction l with
  | nil => intro a b _ ha; cases ha
  | cons x xs ih =>
    intro a b hs ha hb hne
    rw [List.pairwise_cons] at hs
    by_cases hxb : x = b
    · exfalso
      subst hxb
      rcases List.mem_cons.1 ha with rfl | ha
      · exact hne (evLE_refl a)
      · exact hne (hs.1 a ha)
    · have hb2 : b ∈ xs := by
        rcases List.mem_cons.1 hb with h | h
        · exact absurd h.symm hxb
        · exact h
      rcases List.mem_cons.1 ha with rfl | ha2
      · obtain ⟨s, t, hst⟩ := List.append_of_mem hb2
        exact ⟨a :: s, t, by rw [hst, List.cons_append], List.mem_cons_self a s⟩
      · obtain ⟨l1, l2, hsplit, hal1⟩ := ih hs.2 ha2 hb2 hne
        exact ⟨x :: l1, l2, by rw [hsplit, List.cons_append], List.mem_cons_of_mem _ hal1⟩

/-- C3.  On any well-formed layer containing a horizontal wire H and a
vertical wire V whose closed spans touch (V.y1 ≤ H.y1 ≤ V.y2 and
H.x1 ≤ V.x1 ≤ H.x2, with V's X at one of H's endpoint Xs), a fresh
verifier's wire_crossings completes and reports the pair: H's add event
sorts before V's query event (phase 0 before phase 1 at equal X), the
closed-interval range check and intersects test both accept the
touching geometry, and H is still present for a query at its ending X.
The hypotheses are the source's own operating assumptions: wires passed
construction, object ids are unique, and ids stay below the KeyWirePairH
sentinel's one billion. -/
theorem C3_touching_reported (layer : List Wire) (V H : Wire)
    (hwf : WFLayer layer)
    (hHmem : H ∈ layer) (hVmem : V ∈ layer)
    (hH : H.is_horizontal = true) (hV : V.is_horizontal = false)
    (hy1 : V.y1 ≤ H.y1) (hy2 : H.y1 ≤ V.y2)
    (hx1 : H.x1 ≤ V.x1) (hx2 : V.x1 ≤ H.x2)
    (htouch : V.x1 = H.x1 ∨ V.x1 = H.x2)
    (hid : H.object_id ≤ 1000000000) :
    ∃ res, crossingsFresh layer = .ok res ∧ sortedPair V.name H.name ∈ res := by
  have hne : layer.isEmpty = false := by
    cases layer
    · cases hHmem
    · rfl
  -- the sweep over the sorted events completes
  obtain ⟨p, hrun⟩ :=
    sweep_ok (sortEvents (eventsFromLayer layer)) emptyIndex ⟨[]⟩
      (sortEvents_sorted _)
      (sortEvents_pairwise_delNe (eventsFromLayer_pairwise_delNe layer hwf.2))
      (fun e he => events_wf hwf e (mem_sortEvents.1 he))
      trivial
      (fun e he hd => .inr
        (mem_sortEvents.2 (eventsFromLayer_add_present _ (mem_sortEvents.1 he) hd)))
  obtain ⟨rsF, idxF⟩ := p
  -- H's add event precedes V's query event in the sorted order
  have hAmem : addEvent H ∈ sortEvents (eventsFromLayer layer) := by
    refine mem_sortEvents.2 (mem_eventsFromLayer.2 ⟨H, hHmem, ?_⟩)
    unfold eventsFromWire
    simp [hH]
  have hVev : queryEvent V ∈ sortEvents (eventsFromLayer layer) := by
    refine mem_sortEvents.2 (mem_eventsFromLayer.2 ⟨V, hVmem, ?_⟩)
    unfold eventsFromWire
    simp [hV]
  have hnotle : ¬ EvLE (queryEvent V) (addEvent H) := by
    intro hle
    simp only [EvLE, eventLe, queryEvent, addEvent, decide_eq_true_eq] at hle
    omega
  obtain ⟨l1, l2, hsplit, hAl1⟩ :=
    sorted_split (sortEvents_sorted (eventsFromLayer layer)) hAmem hVev hnotle
  -- decompose the run at V's query event
  have hrun0 := hrun
  rw [hsplit, sweepList_append] at hrun
  cases h1 : sweepList l1 emptyIndex ⟨[]⟩ with
  | error err => rw [h1] at hrun; exact absurd hrun (by simp)
  | ok p1 =>
    rw [h1] at hrun
    obtain ⟨rs1, idx1⟩ := p1
    have hdata : idx1.data = addedKeys l1 := by
      have := sweepList_data l1 emptyIndex ⟨[]⟩ (rs1, idx1) h1
      simpa [emptyIndex] using this
    have hkHdata : (⟨H.y1, H⟩ : KeyWirePair) ∈ idx1.data := by
      rw [hdata]
      exact List.mem_filterMap.2 ⟨addEvent H, hAl1, rfl⟩
    have hQC : H ∈ queryCross idx1 V := by
      unfold queryCross
      refine List.mem_map.2 ⟨⟨H.y1, H⟩, ?_, rfl⟩
      refine List.mem_filter.2 ⟨?_, ?_⟩
      · refine List.mem_filter.2 ⟨hkHdata, ?_⟩
        simp only [kwpInRange, KeyWirePairL, KeyWirePairH, KeyWirePair.wire_id,
          Bool.and_eq_true, decide_eq_true_eq]
        omega
      · simp [Wire.intersects, hV, hH, hy1, hy2, hx1, hx2]
    -- the query step records the pair, and it survives the rest
    have hrun2 : sweepList l2 idx1
        ((queryCross idx1 (queryEvent V).wire).foldl
          (fun r cw => r.add_crossing (queryEvent V).wire cw) rs1) = .ok (rsF, idxF) := hrun
    have hpair : sortedPair V.name H.name ∈
        ((queryCross idx1 (queryEvent V).wire).foldl
          (fun r cw => r.add_crossing (queryEvent V).wire cw) rs1).crossings := by
      rw [foldl_add_crossing, List.mem_append]
      refine .inr (List.mem_map.2 ⟨H, hQC, rfl⟩)
    obtain ⟨tl, htl⟩ := sweepList_mono l2 _ _ (rsF, idxF) hrun2
    have hfinal : sortedPair V.name H.name ∈ rsF.crossings := by
      rw [show (rsF, idxF).1.crossings = rsF.crossings from rfl] at htl
      rw [htl, List.mem_append]
      exact .inl hpair
    refine ⟨rsF.crossings, ?_, hfinal⟩
    unfold crossingsFresh mkVerifier
    simp only [hne, Bool.false_eq_true, if_false]
    simp only [CrossVerifier.wire_crossings]
    rw [hrun0]
    simp

/-- C3 witness: the concrete touching layer (vT's X at hT's right end,
vT's low Y at hT's Y) reports the pair. -/
theorem C3_touching_reported_witness :
    ∃ res, crossingsFresh layerT = .ok res ∧ sortedPair vT.name hT.name ∈ res :=
  C3_touching_reported layerT vT hT ⟨by decide, by decide⟩ (by decide) (by decide)
    (by decide) (by decide) (by decide) (by decide) (by decide) (by decide) (by decide)
    (by decide)

end Circuit
